import Mathlib

/-!
Shallow embedding of the `rust-payments-engine` repository.

Monetary amounts (`rust_decimal::Decimal`, an exact scaled-integer decimal)
are modelled as `Rat`: every operation of the source is exact
addition/subtraction/comparison, which `Rat` reproduces exactly.
`HashMap<u32, Decimal>` is modelled as an association list with
first-match lookup, overwrite-on-insert and remove-first, which agrees
with a finite map on every key.
-/

namespace PaymentsEngine

/-- The five transaction types of `src/transaction.rs`. -/
inductive TransactionType where
  | Deposit
  | Withdrawal
  | Dispute
  | Resolve
  | Chargeback
deriving DecidableEq

/-- Error taxonomy of `src/errors/client.rs` (`ClientTransactionError`). -/
inductive ClientTransactionError where
  | AccountLocked (client_id : Nat)
  | AccountAlreadyLocked (client_id : Nat)
  | InvalidTransactionId (client_id : Nat) (tx : Int)
  | InsufficientAvailableFunds (client_id : Nat)
  | MissingAmount (client_id : Nat) (tx_type : TransactionType) (tx : Nat)
  | InvalidAmount (client_id : Nat) (tx : Nat) (amount : Rat)
  | InsufficientHeldFunds (client_id : Nat) (action : String)
  | UnknownTransaction (client_id : Nat) (tx_id : Nat)
  | AlreadyInDispute (client_id : Nat) (tx_id : Nat)
  | NotInDispute (client_id : Nat) (tx_id : Nat)
deriving DecidableEq

/-- Association-list model of `HashMap` lookup (`get`/`contains_key`). -/
def mapLookup : List (Nat × Rat) → Nat → Option Rat
  | [], _ => none
  | (k2, v) :: rest, k => if k2 = k then some v else mapLookup rest k

/-- Association-list model of `HashMap::contains_key`. -/
def mapContains (m : List (Nat × Rat)) (k : Nat) : Bool :=
  (mapLookup m k).isSome

/-- Association-list model of `HashMap::insert` (overwrites an existing key). -/
def mapInsert : List (Nat × Rat) → Nat → Rat → List (Nat × Rat)
  | [], k, v => [(k, v)]
  | (k2, v2) :: rest, k, v =>
      if k2 = k then (k, v) :: rest else (k2, v2) :: mapInsert rest k v

/-- Association-list model of `HashMap::remove`. -/
def mapRemove : List (Nat × Rat) → Nat → List (Nat × Rat)
  | [], _ => []
  | (k2, v2) :: rest, k => if k2 = k then rest else (k2, v2) :: mapRemove rest k

/-- Sum of the amounts stored in a map (used to relate `held` to the live
dispute entries). -/
def sumAmounts : List (Nat × Rat) → Rat
  | [] => 0
  | (_, v) :: rest => v + sumAmounts rest

/-- The account state of `src/client.rs` (`struct Client`). -/
structure Client where
  id : Nat
  available : Rat
  held : Rat
  total : Rat
  locked : Bool
  deposit_transactions : List (Nat × Rat)
  disputed_transactions : List (Nat × Rat)
deriving DecidableEq

/-- `Client::new` — fresh account, all balances zero, unlocked, empty maps. -/
def Client.new (id : Nat) : Client :=
  { id := id, available := 0, held := 0, total := 0, locked := false,
    deposit_transactions := [], disputed_transactions := [] }

/-- `Client::deposit` from `src/client.rs`: reject when locked, otherwise
credit `available` and `total` and record the deposit (insert overwrites an
existing entry of the same tx id). -/
def Client.deposit (c : Client) (tx_id : Nat) (amount : Rat) :
    Except ClientTransactionError Client :=
  if c.locked then .error (.AccountLocked c.id)
  else .ok { c with
    available := c.available + amount,
    total := c.total + amount,
    deposit_transactions := mapInsert c.deposit_transactions tx_id amount }

/-- `Client::withdraw` from `src/client.rs`: reject when locked or when
`available < amount`, otherwise debit `available` and `total`. -/
def Client.withdraw (c : Client) (amount : Rat) :
    Except ClientTransactionError Client :=
  if c.locked then .error (.AccountLocked c.id)
  else if c.available < amount then .error (.InsufficientAvailableFunds c.id)
  else .ok { c with
    available := c.available - amount,
    total := c.total - amount }

/-- `Client::dispute` from `src/client.rs`: reject when locked, when the tx
is already disputed, or when it was never deposited; otherwise move the
deposited amount from `available` to `held` and record the live dispute. -/
def Client.dispute (c : Client) (tx_id : Nat) :
    Except ClientTransactionError Client :=
  if c.locked then .error (.AccountLocked c.id)
  else if mapContains c.disputed_transactions tx_id then
    .error (.AlreadyInDispute c.id tx_id)
  else
    match mapLookup c.deposit_transactions tx_id with
    | none => .error (.UnknownTransaction c.id tx_id)
    | some amount => .ok { c with
        available := c.available - amount,
        held := c.held + amount,
        disputed_transactions := mapInsert c.disputed_transactions tx_id amount }

/-- `Client::resolve` from `src/client.rs`: reject when locked, when the tx
has no live dispute, or (defensively) when `held < amount`; otherwise move
the disputed amount back from `held` to `available` and drop the dispute. -/
def Client.resolve (c : Client) (tx_id : Nat) :
    Except ClientTransactionError Client :=
  if c.locked then .error (.AccountLocked c.id)
  else
    match mapLookup c.disputed_transactions tx_id with
    | none => .error (.NotInDispute c.id tx_id)
    | some amount =>
        if c.held < amount then .error (.InsufficientHeldFunds c.id "resolve")
        else .ok { c with
          held := c.held - amount,
          available := c.available + amount,
          disputed_transactions := mapRemove c.disputed_transactions tx_id }

/-- `Client::chargeback` from `src/client.rs`: reject when already locked,
when the tx has no live dispute, or (defensively) when `held < amount`;
otherwise remove the disputed amount from `held` and `total`, lock the
account and drop the dispute. -/
def Client.chargeback (c : Client) (tx_id : Nat) :
    Except ClientTransactionError Client :=
  if c.locked then .error (.AccountAlreadyLocked c.id)
  else
    match mapLookup c.disputed_transactions tx_id with
    | none => .error (.NotInDispute c.id tx_id)
    | some amount =>
        if c.held < amount then .error (.InsufficientHeldFunds c.id "chargeback")
        else .ok { c with
          held := c.held - amount,
          total := c.total - amount,
          locked := true,
          disputed_transactions := mapRemove c.disputed_transactions tx_id }

/-- One account-level operation, tagging which mutator of `Client` runs. -/
inductive Op where
  | deposit (tx : Nat) (amount : Rat)
  | withdraw (amount : Rat)
  | dispute (tx : Nat)
  | resolve (tx : Nat)
  | chargeback (tx : Nat)
deriving DecidableEq

/-- Dispatch an operation to the matching `Client` mutator. -/
def Client.applyOpE (c : Client) : Op → Except ClientTransactionError Client
  | .deposit tx a => c.deposit tx a
  | .withdraw a => c.withdraw a
  | .dispute tx => c.dispute tx
  | .resolve tx => c.resolve tx
  | .chargeback tx => c.chargeback tx

/-- Run an operation the way the ledger loop does: on a mutator error the
error is logged and the account keeps its previous state. -/
def applyOp (c : Client) (op : Op) : Client :=
  match c.applyOpE op with
  | .ok c2 => c2
  | .error _ => c

/-- Replay a list of operations against a fresh account. -/
def applyOps (id : Nat) (ops : List Op) : Client :=
  ops.foldl applyOp (Client.new id)

/-- Operations whose amounts satisfy the upstream validation contract
(`validate_transaction` only lets strictly positive amounts through for
deposit and withdrawal). -/
def ValidOp : Op → Bool
  | .deposit _ a => decide (0 < a)
  | .withdraw a => decide (0 < a)
  | _ => true

/-- A deserialized CSV row of `src/lib.rs` (`struct InputTransaction`,
`tx: i64`, `amount: Option<Decimal>`). -/
structure InputTransaction where
  tx_type : TransactionType
  client : Nat
  tx : Int
  amount : Option Rat
deriving DecidableEq

/-- Result of `validate_transaction` in `src/lib.rs`. -/
inductive ValidatedTransaction where
  | WithAmount (tx : Nat) (amount : Rat)
  | NoAmount (tx : Nat)
deriving DecidableEq

/-- Largest value accepted by `u32::try_from` on an `i64`. -/
def u32Max : Int := 4294967295

/-- `validate_transaction` from `src/lib.rs`: reject negative or
u32-overflowing tx ids; for deposit/withdrawal require a present, strictly
positive amount; for the other three types accept regardless of `amount`. -/
def validate_transaction (tx_type : TransactionType) (client_id : Nat)
    (tx : Int) (amount : Option Rat) :
    Except ClientTransactionError ValidatedTransaction :=
  if tx < 0 then .error (.InvalidTransactionId client_id tx)
  else if u32Max < tx then .error (.InvalidTransactionId client_id tx)
  else
    match tx_type with
    | .Deposit | .Withdrawal =>
        match amount with
        | some value =>
            if 0 < value then .ok (.WithAmount tx.toNat value)
            else .error (.InvalidAmount client_id tx.toNat value)
        | none => .error (.MissingAmount client_id tx_type tx.toNat)
    | _ => .ok (.NoAmount tx.toNat)

/-- The ledger's account collection, keyed by client id. -/
abbrev ClientMap := List (Nat × Client)

/-- Lookup in the account collection (`HashMap::get`). -/
def lookupClient : ClientMap → Nat → Option Client
  | [], _ => none
  | (k2, v) :: rest, k => if k2 = k then some v else lookupClient rest k

/-- Insert into the account collection (`HashMap` entry semantics:
overwrite an existing key, otherwise add). -/
def insertClient : ClientMap → Nat → Client → ClientMap
  | [], k, v => [(k, v)]
  | (k2, v2) :: rest, k, v =>
      if k2 = k then (k, v) :: rest else (k2, v2) :: insertClient rest k v

/-- On a mutator error the loop of `process_transactions` logs and keeps
the account's previous state. -/
def applyResult (c : Client) : Except ClientTransactionError Client → Client
  | .ok c2 => c2
  | .error _ => c

/-- The dispatch `match (tx_type, validated)` inside the loop of
`process_transactions` (`src/lib.rs`), as the mutator call it makes; the
final catch-all arm only logs, modelled as a success with no change. -/
def mutateE (c : Client) : TransactionType → ValidatedTransaction →
    Except ClientTransactionError Client
  | .Deposit, .WithAmount tx amount => c.deposit tx amount
  | .Withdrawal, .WithAmount _ amount => c.withdraw amount
  | .Dispute, .NoAmount tx => c.dispute tx
  | .Resolve, .NoAmount tx => c.resolve tx
  | .Chargeback, .NoAmount tx => c.chargeback tx
  | _, _ => .ok c

/-- The account state after the dispatch: a mutator error is logged and
the account keeps its previous state. -/
def mutate (c : Client) (tx_type : TransactionType) (v : ValidatedTransaction) : Client :=
  applyResult c (mutateE c tx_type v)

/-- One iteration of the loop of `process_transactions` in `src/lib.rs`.
`none` stands for a CSV row that failed to deserialize (logged, skipped);
a validation error skips the row before the account is created; a
validated record creates the account on first sight
(`entry(..).or_insert_with(..)`) and then runs the mutator. -/
def processRow (clients : ClientMap) (r : Option InputTransaction) : ClientMap :=
  match r with
  | none => clients
  | some t =>
      match validate_transaction t.tx_type t.client t.tx t.amount with
      | .error _ => clients
      | .ok v =>
          let c := (lookupClient clients t.client).getD (Client.new t.client)
          insertClient clients t.client (mutate c t.tx_type v)

/-- Final account collection after the loop of `process_transactions`. -/
def processTransactionsMap (records : List (Option InputTransaction)) : ClientMap :=
  records.foldl processRow []

/-- Insertion step of sorting the accounts by ascending id
(`sort_by_key(|client| client.id)`; ids are unique so any correct sort
gives the same list). -/
def insertById (c : Client) : List Client → List Client
  | [] => [c]
  | d :: rest => if c.id ≤ d.id then c :: d :: rest else d :: insertById c rest

/-- Sort the accounts by ascending id. -/
def sortById : List Client → List Client
  | [] => []
  | c :: rest => insertById c (sortById rest)

/-- Round a rational to the nearest integer, ties away from zero; models
the rounding `format!` applies to a `Decimal` with more than four
fractional digits. -/
def roundHalfAway (q : Rat) : Int :=
  if 0 ≤ q then (q + 1 / 2).floor else -((-q + 1 / 2).floor)

/-- Four zero-padded decimal digits (the fractional part produced by a
width-4 precision format). -/
def fourDigits (n : Nat) : String :=
  String.mk [Nat.digitChar (n / 1000 % 10), Nat.digitChar (n / 100 % 10),
    Nat.digitChar (n / 10 % 10), Nat.digitChar (n % 10)]

/-- `format_decimal` from `src/lib.rs` and `src/utils.rs`, i.e.
Rust's `format!` with fixed precision 4 on the exact decimal value: sign,
integer part, a point, then exactly four fractional digits. -/
def format_decimal (q : Rat) : String :=
  let scaled : Int := roundHalfAway (q * 10000)
  let sign := if scaled < 0 then "-" else ""
  let m := scaled.natAbs
  sign ++ Nat.repr (m / 10000) ++ "." ++ fourDigits (m % 10000)

/-- Rust's `bool::to_string`. -/
def boolString (b : Bool) : String :=
  if b then "true" else "false"

/-- One output row of the final snapshot (`write_record` in
`process_transactions`). -/
def clientRow (c : Client) : List String :=
  [Nat.repr c.id, format_decimal c.available, format_decimal c.held,
    format_decimal c.total, boolString c.locked]

/-- The snapshot written at the end of `process_transactions`
(`src/lib.rs`): header row, then one row per account in ascending id
order. -/
def snapshot (clients : ClientMap) : List (List String) :=
  ["client", "available", "held", "total", "locked"] ::
    (sortById (clients.map Prod.snd)).map clientRow

/-- Engine-level result of `src/lib.rs::process_transactions`; the only
error paths of the source are CSV-writer I/O failures, which are outside
the embedded core, so the embedded loop and snapshot are total. -/
def process_transactions (records : List (Option InputTransaction)) :
    Except String (List (List String)) :=
  .ok (snapshot (processTransactionsMap records))

/-- A deserialized CSV row of the binary's duplicate engine
(`src/utils.rs::InputTransaction`, `tx: u32`). -/
structure MainInputTransaction where
  tx_type : TransactionType
  client : Nat
  tx : Nat
  amount : Option Rat
deriving DecidableEq

/-- `missing_amount_error` from `src/utils.rs`, rendered as its display
string. -/
def missing_amount_error (tx_type : String) (tx : Nat) : String :=
  "Missing amount for " ++ tx_type ++ " transaction " ++ Nat.repr tx

/-- The loop of `src/main.rs::process_transactions`: no amount validation;
a deposit or withdrawal whose amount is absent makes the whole run return
an error; other mutator failures are logged and skipped. The account is
entered into the map before the amount check, as in the source. -/
def mainProcessRows : ClientMap → List (Option MainInputTransaction) →
    Except String ClientMap
  | clients, [] => .ok clients
  | clients, none :: rest => mainProcessRows clients rest
  | clients, some t :: rest =>
      let c := (lookupClient clients t.client).getD (Client.new t.client)
      let clients1 := insertClient clients t.client c
      match t.tx_type with
      | .Deposit =>
          match t.amount with
          | none => .error (missing_amount_error "deposit" t.tx)
          | some a =>
              mainProcessRows (insertClient clients1 t.client
                (applyResult c (c.deposit t.tx a))) rest
      | .Withdrawal =>
          match t.amount with
          | none => .error (missing_amount_error "withdrawal" t.tx)
          | some a =>
              mainProcessRows (insertClient clients1 t.client
                (applyResult c (c.withdraw a))) rest
      | .Dispute =>
          mainProcessRows (insertClient clients1 t.client
            (applyResult c (c.dispute t.tx))) rest
      | .Resolve =>
          mainProcessRows (insertClient clients1 t.client
            (applyResult c (c.resolve t.tx))) rest
      | .Chargeback =>
          mainProcessRows (insertClient clients1 t.client
            (applyResult c (c.chargeback t.tx))) rest

/-- `src/main.rs::process_transactions` restricted to the embedded core:
process the rows, then emit the snapshot (a `BTreeMap` iterates in
ascending key order, which the sort reproduces). -/
def main_process_transactions (records : List (Option MainInputTransaction)) :
    Except String (List (List String)) :=
  match mainProcessRows [] records with
  | .error e => .error e
  | .ok clients => .ok (snapshot clients)

/-- Decidable equality for `Except`, used to evaluate concrete scenarios. -/
instance {ε α : Type} [DecidableEq ε] [DecidableEq α] : DecidableEq (Except ε α) := fun a b =>
  match a, b with
  | .ok x, .ok y =>
      if h : x = y then isTrue (by rw [h]) else
        isFalse fun hh => h (Except.ok.inj hh)
  | .error e, .error f =>
      if h : e = f then isTrue (by rw [h]) else
        isFalse fun hh => h (Except.error.inj hh)
  | .ok _, .error _ => isFalse fun hh => Except.noConfusion hh
  | .error _, .ok _ => isFalse fun hh => Except.noConfusion hh

/-- Bool-valued test that one record is validated and addressed to a
given client id. -/
def rowValidatedFor (r : Option InputTransaction) (id : Nat) : Bool :=
  match r with
  | none => false
  | some t =>
      decide (t.client = id) &&
        (match validate_transaction t.tx_type t.client t.tx t.amount with
          | .ok _ => true
          | .error _ => false)

/-- Bool-valued test that at least one record of the input is validated
and addressed to a given client id (the records that make
`process_transactions` create a row). -/
def appearsValidated (records : List (Option InputTransaction)) (id : Nat) : Bool :=
  records.any fun r => rowValidatedFor r id

/-- Well-formedness of the ledger's account collection: every stored
account carries the id it is keyed under. -/
def IdsOk (m : ClientMap) : Prop :=
  ∀ p ∈ m, (p.2).id = p.1

/-- Well-formedness of the ledger's account collection: keys are unique,
as in a real map. -/
def KeysNodup (m : ClientMap) : Prop :=
  (m.map Prod.fst).Nodup

/-- Bookkeeping invariant of reachable account states: `held` is exactly
the sum of the live disputed amounts, and all recorded amounts are
positive (the upstream validation only lets positive amounts through). -/
def AccountInv (c : Client) : Prop :=
  c.held = sumAmounts c.disputed_transactions ∧
  (∀ p ∈ c.deposit_transactions, 0 < p.2) ∧
  (∀ p ∈ c.disputed_transactions, 0 < p.2)

/-! Helper lemmas about the account operations. -/

theorem applyOp_total_eq (c : Client) (op : Op)
    (h : c.total = c.available + c.held) :
    (applyOp c op).total = (applyOp c op).available + (applyOp c op).held := by
  cases op with
  | deposit tx a =>
      by_cases hl : c.locked <;>
        simp [applyOp, Client.applyOpE, Client.deposit, hl, h] <;> ring
  | withdraw a =>
      by_cases hl : c.locked
      · simp [applyOp, Client.applyOpE, Client.withdraw, hl, h]
      · by_cases hav : c.available < a <;>
          simp [applyOp, Client.applyOpE, Client.withdraw, hl, hav, h] <;> ring
  | dispute tx =>
      by_cases hl : c.locked
      · simp [applyOp, Client.applyOpE, Client.dispute, hl, h]
      · by_cases hd : mapContains c.disputed_transactions tx
        · simp [applyOp, Client.applyOpE, Client.dispute, hl, hd, h]
        · cases hm : mapLookup c.deposit_transactions tx with
          | none => simp [applyOp, Client.applyOpE, Client.dispute, hl, hd, hm, h]
          | some a =>
              simp [applyOp, Client.applyOpE, Client.dispute, hl, hd, hm, h]
              try ring
  | resolve tx =>
      by_cases hl : c.locked
      · simp [applyOp, Client.applyOpE, Client.resolve, hl, h]
      · cases hm : mapLookup c.disputed_transactions tx with
        | none => simp [applyOp, Client.applyOpE, Client.resolve, hl, hm, h]
        | some a =>
            by_cases hh : c.held < a <;>
              simp [applyOp, Client.applyOpE, Client.resolve, hl, hm, hh, h] <;> ring
  | chargeback tx =>
      by_cases hl : c.locked
      · simp [applyOp, Client.applyOpE, Client.chargeback, hl, h]
      · cases hm : mapLookup c.disputed_transactions tx with
        | none => simp [applyOp, Client.applyOpE, Client.chargeback, hl, hm, h]
        | some a =>
            by_cases hh : c.held < a <;>
              simp [applyOp, Client.applyOpE, Client.chargeback, hl, hm, hh, h] <;> ring

theorem foldl_total_eq (ops : List Op) :
    ∀ c : Client, c.total = c.available + c.held →
      (ops.foldl applyOp c).total =
        (ops.foldl applyOp c).available + (ops.foldl applyOp c).held := by
  induction ops with
  | nil => intro c h; simpa using h
  | cons op rest ih =>
      intro c h
      simpa using ih (applyOp c op) (applyOp_total_eq c op h)

/-- C1: every one of the five operations, successful or failed, preserves
the exact equation `total = available + held`, and therefore every state
reachable from a fresh account satisfies it. -/
theorem total_invariant :
    (∀ (c : Client) (op : Op), c.total = c.available + c.held →
      (applyOp c op).total = (applyOp c op).available + (applyOp c op).held) ∧
    ∀ (id : Nat) (ops : List Op),
      (applyOps id ops).total =
        (applyOps id ops).available + (applyOps id ops).held := by
  refine ⟨applyOp_total_eq, fun id ops => ?_⟩
  have h0 : (Client.new id).total = (Client.new id).available + (Client.new id).held := by
    simp [Client.new]
  simpa [applyOps] using foldl_total_eq ops (Client.new id) h0

/-- Witness for C1 at a concrete account and operation. -/
theorem total_invariant_witness :
    (applyOp (Client.new 7) (.deposit 1 5)).total =
      (applyOp (Client.new 7) (.deposit 1 5)).available +
        (applyOp (Client.new 7) (.deposit 1 5)).held ∧
    (applyOps 3 [.deposit 1 5, .dispute 1]).total =
      (applyOps 3 [.deposit 1 5, .dispute 1]).available +
        (applyOps 3 [.deposit 1 5, .dispute 1]).held :=
  ⟨total_invariant.1 (Client.new 7) (.deposit 1 5) (by norm_num [Client.new]),
   total_invariant.2 3 [.deposit 1 5, .dispute 1]⟩

/-- C2: on a locked account every mutator fails — `AccountLocked` for
deposit, withdraw, dispute and resolve, `AccountAlreadyLocked` for
chargeback — with no field changed; hence no sequence of operations ever
changes a locked account. -/
theorem locked_account_frozen :
    ∀ (c : Client), c.locked = true →
      (∀ tx a, c.deposit tx a = .error (.AccountLocked c.id)) ∧
      (∀ a, c.withdraw a = .error (.AccountLocked c.id)) ∧
      (∀ tx, c.dispute tx = .error (.AccountLocked c.id)) ∧
      (∀ tx, c.resolve tx = .error (.AccountLocked c.id)) ∧
      (∀ tx, c.chargeback tx = .error (.AccountAlreadyLocked c.id)) ∧
      (∀ op, applyOp c op = c) ∧
      (∀ ops : List Op, List.foldl applyOp c ops = c) := by
  intro c h
  have hop : ∀ op, applyOp c op = c := by
    intro op
    cases op <;> simp [applyOp, Client.applyOpE, Client.deposit, Client.withdraw,
      Client.dispute, Client.resolve, Client.chargeback, h]
  have hfold : ∀ ops : List Op, List.foldl applyOp c ops = c := by
    intro ops
    induction ops with
    | nil => rfl
    | cons op rest ih => simp [List.foldl, hop op, ih]
  exact ⟨fun tx a => by simp [Client.deposit, h],
    fun a => by simp [Client.withdraw, h],
    fun tx => by simp [Client.dispute, h],
    fun tx => by simp [Client.resolve, h],
    fun tx => by simp [Client.chargeback, h],
    hop, hfold⟩

/-- Witness for C2 at the locked account produced by a chargeback. -/
theorem locked_account_frozen_witness :
    (applyOps 1 [.deposit 1 12, .dispute 1, .chargeback 1]).withdraw 3 =
      .error (.AccountLocked (applyOps 1 [.deposit 1 12, .dispute 1, .chargeback 1]).id) ∧
    List.foldl applyOp (applyOps 1 [.deposit 1 12, .dispute 1, .chargeback 1])
        [Op.deposit 2 9, Op.dispute 2] =
      applyOps 1 [.deposit 1 12, .dispute 1, .chargeback 1] := by
  have h : (applyOps 1 [.deposit 1 12, .dispute 1, .chargeback 1]).locked = true := by
    norm_num [applyOps, applyOp, Client.applyOpE, Client.new, Client.deposit,
      Client.dispute, Client.chargeback, mapContains, mapLookup, mapInsert, mapRemove]
  exact ⟨(locked_account_frozen _ h).2.1 3,
    (locked_account_frozen _ h).2.2.2.2.2.2 [Op.deposit 2 9, Op.dispute 2]⟩

theorem mapLookup_insert (m : List (Nat × Rat)) (k : Nat) (v : Rat) :
    mapLookup (mapInsert m k v) k = some v := by
  induction m with
  | nil => simp [mapInsert, mapLookup]
  | cons p rest ih =>
      by_cases h : p.1 = k <;> simp [mapInsert, mapLookup, h, ih]

theorem applyOp_locked_eq (c : Client) (op : Op)
    (h : ∀ tx, op ≠ Op.chargeback tx) : (applyOp c op).locked = c.locked := by
  cases op with
  | chargeback tx => exact absurd rfl (h tx)
  | deposit tx a =>
      by_cases hl : c.locked <;> simp [applyOp, Client.applyOpE, Client.deposit, hl]
  | withdraw a =>
      by_cases hl : c.locked
      · simp [applyOp, Client.applyOpE, Client.withdraw, hl]
      · by_cases hav : c.available < a <;>
          simp [applyOp, Client.applyOpE, Client.withdraw, hl, hav]
  | dispute tx =>
      by_cases hl : c.locked
      · simp [applyOp, Client.applyOpE, Client.dispute, hl]
      · by_cases hd : mapContains c.disputed_transactions tx
        · simp [applyOp, Client.applyOpE, Client.dispute, hl, hd]
        · cases hm : mapLookup c.deposit_transactions tx <;>
            simp [applyOp, Client.applyOpE, Client.dispute, hl, hd, hm]
  | resolve tx =>
      by_cases hl : c.locked
      · simp [applyOp, Client.applyOpE, Client.resolve, hl]
      · cases hm : mapLookup c.disputed_transactions tx with
        | none => simp [applyOp, Client.applyOpE, Client.resolve, hl, hm]
        | some a =>
            by_cases hh : c.held < a <;>
              simp [applyOp, Client.applyOpE, Client.resolve, hl, hm, hh]

theorem applyOp_of_locked (c : Client) (op : Op) (h : c.locked = true) :
    applyOp c op = c := by
  cases op <;> simp [applyOp, Client.applyOpE, Client.deposit, Client.withdraw,
    Client.dispute, Client.resolve, Client.chargeback, h]

/-- C3: on an unlocked account, disputing a recorded deposit of amount `a`
that has no live dispute succeeds and moves exactly `a` from `available`
to `held`, recording the live dispute and leaving `total` unchanged;
`available` may become negative, as in deposit(1,5), withdraw(4),
dispute(1). -/
theorem dispute_effect :
    (∀ (c : Client) (tx : Nat) (a : Rat),
      c.locked = false →
      mapContains c.disputed_transactions tx = false →
      mapLookup c.deposit_transactions tx = some a →
      c.dispute tx = .ok { c with
        available := c.available - a,
        held := c.held + a,
        disputed_transactions := mapInsert c.disputed_transactions tx a }) ∧
    ((applyOps 1 [.deposit 1 5, .withdraw 4, .dispute 1]).available = -4 ∧
      (applyOps 1 [.deposit 1 5, .withdraw 4, .dispute 1]).held = 5 ∧
      (applyOps 1 [.deposit 1 5, .withdraw 4, .dispute 1]).total = 1) := by
  constructor
  · intro c tx a hl hd hm
    simp [Client.dispute, hl, hd, hm]
  · refine ⟨?_, ?_, ?_⟩ <;>
      norm_num [applyOps, applyOp, Client.applyOpE, Client.new, Client.deposit,
        Client.withdraw, Client.dispute, mapContains, mapLookup, mapInsert]

/-- Witness for C3: disputing the tx-1 deposit of 5 on the account that
just received it. -/
theorem dispute_effect_witness :
    (applyOp (Client.new 1) (.deposit 1 5)).dispute 1 =
      .ok { applyOp (Client.new 1) (.deposit 1 5) with
        available := (applyOp (Client.new 1) (.deposit 1 5)).available - 5,
        held := (applyOp (Client.new 1) (.deposit 1 5)).held + 5,
        disputed_transactions :=
          mapInsert (applyOp (Client.new 1) (.deposit 1 5)).disputed_transactions 1 5 } :=
  dispute_effect.1 (applyOp (Client.new 1) (.deposit 1 5)) 1 5
    (by norm_num [applyOp, Client.applyOpE, Client.new, Client.deposit, mapInsert])
    (by norm_num [applyOp, Client.applyOpE, Client.new, Client.deposit, mapInsert,
      mapContains, mapLookup])
    (by norm_num [applyOp, Client.applyOpE, Client.new, Client.deposit, mapInsert,
      mapContains, mapLookup])

/-- C4: on an unlocked account, charging back a live dispute of amount `a`
with `held >= a` succeeds, removes `a` from `held` and `total`, drops the
dispute and locks the account; chargeback is the only operation that sets
`locked` and no operation resets it, as in deposit(1,12), dispute(1),
chargeback(1), after which a second chargeback fails with
`AccountAlreadyLocked`. -/
theorem chargeback_effect :
    (∀ (c : Client) (tx : Nat) (a : Rat),
      c.locked = false →
      mapLookup c.disputed_transactions tx = some a →
      a ≤ c.held →
      c.chargeback tx = .ok { c with
        held := c.held - a,
        total := c.total - a,
        locked := true,
        disputed_transactions := mapRemove c.disputed_transactions tx }) ∧
    (∀ (c : Client) (op : Op), (applyOp c op).locked = true →
      c.locked = true ∨ ∃ tx, op = Op.chargeback tx) ∧
    (∀ (c : Client) (op : Op), c.locked = true → (applyOp c op).locked = true) ∧
    ((applyOps 1 [.deposit 1 12, .dispute 1, .chargeback 1]).available = 0 ∧
      (applyOps 1 [.deposit 1 12, .dispute 1, .chargeback 1]).held = 0 ∧
      (applyOps 1 [.deposit 1 12, .dispute 1, .chargeback 1]).total = 0 ∧
      (applyOps 1 [.deposit 1 12, .dispute 1, .chargeback 1]).locked = true ∧
      (applyOps 1 [.deposit 1 12, .dispute 1, .chargeback 1]).chargeback 1 =
        .error (.AccountAlreadyLocked 1)) := by
  refine ⟨?_, ?_, ?_, ?_⟩
  · intro c tx a hl hm hle
    simp [Client.chargeback, hl, hm, not_lt.mpr hle]
  · intro c op h
    by_cases hc : ∃ tx, op = Op.chargeback tx
    · exact .inr hc
    · push_neg at hc
      rw [applyOp_locked_eq c op hc] at h
      exact .inl h
  · intro c op h
    rw [applyOp_of_locked c op h]
    exact h
  · refine ⟨?_, ?_, ?_, ?_, ?_⟩ <;>
      norm_num [applyOps, applyOp, Client.applyOpE, Client.new, Client.deposit,
        Client.dispute, Client.chargeback, mapContains, mapLookup, mapInsert, mapRemove]

/-- Witness for C4: charging back the disputed tx-1 deposit of 12. -/
theorem chargeback_effect_witness :
    (applyOps 1 [.deposit 1 12, .dispute 1]).chargeback 1 =
      .ok { applyOps 1 [.deposit 1 12, .dispute 1] with
        held := (applyOps 1 [.deposit 1 12, .dispute 1]).held - 12,
        total := (applyOps 1 [.deposit 1 12, .dispute 1]).total - 12,
        locked := true,
        disputed_transactions :=
          mapRemove (applyOps 1 [.deposit 1 12, .dispute 1]).disputed_transactions 1 } :=
  chargeback_effect.1 (applyOps 1 [.deposit 1 12, .dispute 1]) 1 12
    (by norm_num [applyOps, applyOp, Client.applyOpE, Client.new, Client.deposit,
      Client.dispute, mapContains, mapLookup, mapInsert])
    (by norm_num [applyOps, applyOp, Client.applyOpE, Client.new, Client.deposit,
      Client.dispute, mapContains, mapLookup, mapInsert])
    (by norm_num [applyOps, applyOp, Client.applyOpE, Client.new, Client.deposit,
      Client.dispute, mapContains, mapLookup, mapInsert])

/-- C5: every operation that returns an error leaves the account exactly
as it was; on an unlocked account withdraw fails with
`InsufficientAvailableFunds` precisely when `available < amount`, and
disputing an unknown tx id fails with `UnknownTransaction`; scenarios B
and F evaluate as the spec states. -/
theorem error_leaves_state :
    (∀ (c : Client) (op : Op) (e : ClientTransactionError),
      c.applyOpE op = .error e → applyOp c op = c) ∧
    (∀ (c : Client) (a : Rat), c.locked = false →
      (c.withdraw a = .error (.InsufficientAvailableFunds c.id) ↔ c.available < a)) ∧
    (∀ (c : Client) (tx : Nat), c.locked = false →
      mapContains c.disputed_transactions tx = false →
      mapLookup c.deposit_transactions tx = none →
      c.dispute tx = .error (.UnknownTransaction c.id tx)) ∧
    ((applyOp (Client.new 1) (.deposit 1 5)).withdraw 7 =
        .error (.InsufficientAvailableFunds 1) ∧
      (applyOps 1 [.deposit 1 5, .withdraw 7]).available = 5 ∧
      (applyOps 1 [.deposit 1 5, .withdraw 7]).total = 5) ∧
    ((Client.new 1).dispute 999 = .error (.UnknownTransaction 1 999) ∧
      applyOps 1 [.dispute 999] = Client.new 1) := by
  refine ⟨?_, ?_, ?_, ?_, ?_⟩
  · intro c op e h
    simp [applyOp, h]
  · intro c a hl
    by_cases hav : c.available < a <;> simp [Client.withdraw, hl, hav]
  · intro c tx hl hd hm
    simp [Client.dispute, hl, hd, hm]
  · refine ⟨?_, ?_, ?_⟩ <;>
      norm_num [applyOps, applyOp, Client.applyOpE, Client.new, Client.deposit,
        Client.withdraw, mapContains, mapLookup, mapInsert]
  · constructor <;>
      norm_num [applyOps, applyOp, Client.applyOpE, Client.new, Client.dispute,
        mapContains, mapLookup]

/-- Witness for C5: a failing withdrawal on a fresh account leaves it
unchanged. -/
theorem error_leaves_state_witness :
    applyOp (Client.new 1) (.withdraw 3) = Client.new 1 :=
  error_leaves_state.1 (Client.new 1) (.withdraw 3)
    (.InsufficientAvailableFunds 1)
    (by norm_num [Client.applyOpE, Client.new, Client.withdraw])

/-- C8: depositing twice with the same tx id on an unlocked account
double-credits `available` and `total` by `a1 + a2`, but the deposits map
keeps only the second amount, so a later dispute of that tx id moves
exactly `a2`. -/
theorem double_deposit :
    ∀ (c : Client) (tx : Nat) (a1 a2 : Rat),
      c.locked = false →
      mapContains c.disputed_transactions tx = false →
      ∃ c1 c2,
        c.deposit tx a1 = .ok c1 ∧
        c1.deposit tx a2 = .ok c2 ∧
        c2.available = c.available + a1 + a2 ∧
        c2.total = c.total + a1 + a2 ∧
        mapLookup c2.deposit_transactions tx = some a2 ∧
        c2.dispute tx = .ok { c2 with
          available := c2.available - a2,
          held := c2.held + a2,
          disputed_transactions := mapInsert c2.disputed_transactions tx a2 } := by
  intro c tx a1 a2 hl hd
  refine ⟨({ c with
      available := c.available + a1,
      total := c.total + a1,
      deposit_transactions := mapInsert c.deposit_transactions tx a1 }),
    ({ c with
      available := c.available + a1 + a2,
      total := c.total + a1 + a2,
      deposit_transactions := mapInsert (mapInsert c.deposit_transactions tx a1) tx a2 }),
    ?_, ?_, rfl, rfl, ?_, ?_⟩
  · simp [Client.deposit, hl]
  · simp [Client.deposit, hl, add_assoc]
  · exact mapLookup_insert _ tx a2
  · simp [Client.dispute, hl, hd, mapLookup_insert]

/-- Witness for C8: two deposits of 5 then 7 under tx id 1 on a fresh
account. -/
theorem double_deposit_witness :
    ∃ c1 c2,
      (Client.new 1).deposit 1 5 = .ok c1 ∧
      c1.deposit 1 7 = .ok c2 ∧
      c2.available = (Client.new 1).available + 5 + 7 ∧
      c2.total = (Client.new 1).total + 5 + 7 ∧
      mapLookup c2.deposit_transactions 1 = some 7 ∧
      c2.dispute 1 = .ok { c2 with
        available := c2.available - 7,
        held := c2.held + 7,
        disputed_transactions := mapInsert c2.disputed_transactions 1 7 } :=
  double_deposit (Client.new 1) 1 5 7 (by norm_num [Client.new])
    (by norm_num [Client.new, mapContains, mapLookup])

theorem sumAmounts_nonneg (m : List (Nat × Rat)) (h : ∀ p ∈ m, 0 < p.2) :
    0 ≤ sumAmounts m := by
  induction m with
  | nil => simp [sumAmounts]
  | cons p rest ih =>
      have hp := h p (by simp)
      have hr := ih fun q hq => h q (by simp [hq])
      simp only [sumAmounts]
      positivity

theorem mapLookup_mem {m : List (Nat × Rat)} {k : Nat} {a : Rat}
    (h : mapLookup m k = some a) : (k, a) ∈ m := by
  induction m with
  | nil => simp [mapLookup] at h
  | cons p rest ih =>
      by_cases hk : p.1 = k
      · simp [mapLookup, hk] at h
        subst h
        subst hk
        exact List.mem_cons_self _ _
      · simp [mapLookup, hk] at h
        exact .tail _ (ih h)

theorem mem_le_sumAmounts {m : List (Nat × Rat)} {k : Nat} {a : Rat}
    (hpos : ∀ p ∈ m, 0 < p.2) (hmem : (k, a) ∈ m) : a ≤ sumAmounts m := by
  induction m with
  | nil => simp at hmem
  | cons p rest ih =>
      have hr : 0 ≤ sumAmounts rest :=
        sumAmounts_nonneg rest fun q hq => hpos q (by simp [hq])
      rcases List.mem_cons.mp hmem with heq | htail
      · simp only [sumAmounts, ← heq]
        linarith
      · have hp := hpos p (by simp)
        have := ih (fun q hq => hpos q (by simp [hq])) htail
        simp only [sumAmounts]
        linarith

theorem mapInsert_mem {m : List (Nat × Rat)} {k : Nat} {v : Rat} {p : Nat × Rat}
    (h : p ∈ mapInsert m k v) : p = (k, v) ∨ p ∈ m := by
  induction m with
  | nil => simpa [mapInsert] using h
  | cons q rest ih =>
      by_cases hk : q.1 = k
      · simp only [mapInsert, if_pos hk] at h
        rcases List.mem_cons.mp h with heq | htail
        · exact .inl heq
        · exact .inr (.tail _ htail)
      · simp only [mapInsert, if_neg hk] at h
        rcases List.mem_cons.mp h with heq | htail
        · exact .inr (heq ▸ List.mem_cons_self q rest)
        · rcases ih htail with h1 | h2
          · exact .inl h1
          · exact .inr (.tail _ h2)

theorem mapRemove_mem {m : List (Nat × Rat)} {k : Nat} {p : Nat × Rat}
    (h : p ∈ mapRemove m k) : p ∈ m := by
  induction m with
  | nil => simpa [mapRemove] using h
  | cons q rest ih =>
      by_cases hk : q.1 = k
      · simp only [mapRemove, if_pos hk] at h
        exact .tail _ h
      · simp only [mapRemove, if_neg hk] at h
        rcases List.mem_cons.mp h with heq | htail
        · exact heq ▸ List.mem_cons_self q rest
        · exact .tail _ (ih htail)

theorem sumAmounts_remove {m : List (Nat × Rat)} {k : Nat} {a : Rat}
    (h : mapLookup m k = some a) :
    sumAmounts (mapRemove m k) = sumAmounts m - a := by
  induction m with
  | nil => simp [mapLookup] at h
  | cons p rest ih =>
      by_cases hk : p.1 = k
      · simp [mapLookup, hk] at h
        simp [mapRemove, hk, sumAmounts, h]
      · simp [mapLookup, hk] at h
        simp only [mapRemove, if_neg hk, sumAmounts, ih h]
        ring

theorem sumAmounts_insert {m : List (Nat × Rat)} {k : Nat} (v : Rat)
    (h : mapContains m k = false) :
    sumAmounts (mapInsert m k v) = sumAmounts m + v := by
  induction m with
  | nil => simp [mapInsert, sumAmounts]
  | cons p rest ih =>
      by_cases hk : p.1 = k
      · exfalso
        simp [mapContains, mapLookup, hk] at h
      · have hr : mapContains rest k = false := by
          simpa [mapContains, mapLookup, hk] using h
        simp only [mapInsert, if_neg hk, sumAmounts, ih hr]
        ring

theorem applyOp_inv (c : Client) (op : Op) (hv : ValidOp op = true)
    (h : AccountInv c) : AccountInv (applyOp c op) := by
  obtain ⟨hsum, hdep, hdis⟩ := h
  cases op with
  | deposit tx a =>
      have ha : (0 : Rat) < a := by simpa [ValidOp] using hv
      by_cases hl : c.locked
      · simpa [applyOp, Client.applyOpE, Client.deposit, hl] using ⟨hsum, hdep, hdis⟩
      · simp only [applyOp, Client.applyOpE, Client.deposit, hl]
        refine ⟨hsum, ?_, hdis⟩
        intro p hp
        rcases mapInsert_mem hp with rfl | hmem
        · exact ha
        · exact hdep p hmem
  | withdraw a =>
      by_cases hl : c.locked
      · simpa [applyOp, Client.applyOpE, Client.withdraw, hl] using ⟨hsum, hdep, hdis⟩
      · by_cases hav : c.available < a <;>
          simpa [applyOp, Client.applyOpE, Client.withdraw, hl, hav] using
            ⟨hsum, hdep, hdis⟩
  | dispute tx =>
      by_cases hl : c.locked
      · simpa [applyOp, Client.applyOpE, Client.dispute, hl] using ⟨hsum, hdep, hdis⟩
      · by_cases hd : mapContains c.disputed_transactions tx
        · simpa [applyOp, Client.applyOpE, Client.dispute, hl, hd] using
            ⟨hsum, hdep, hdis⟩
        · cases hm : mapLookup c.deposit_transactions tx with
          | none =>
              simpa [applyOp, Client.applyOpE, Client.dispute, hl, hd, hm] using
                ⟨hsum, hdep, hdis⟩
          | some a =>
              have ha : (0 : Rat) < a := hdep _ (mapLookup_mem hm)
              have hdf : mapContains c.disputed_transactions tx = false := by
                simpa using hd
              simp only [applyOp, Client.applyOpE, Client.dispute, hl, hd, hm,
                Bool.false_eq_true, if_false]
              refine ⟨?_, hdep, ?_⟩
              · simp [sumAmounts_insert a hdf, hsum]
              · intro p hp
                rcases mapInsert_mem hp with rfl | hmem
                · exact ha
                · exact hdis p hmem
  | resolve tx =>
      by_cases hl : c.locked
      · simpa [applyOp, Client.applyOpE, Client.resolve, hl] using ⟨hsum, hdep, hdis⟩
      · cases hm : mapLookup c.disputed_transactions tx with
        | none =>
            simpa [applyOp, Client.applyOpE, Client.resolve, hl, hm] using
              ⟨hsum, hdep, hdis⟩
        | some a =>
            by_cases hh : c.held < a
            · simpa [applyOp, Client.applyOpE, Client.resolve, hl, hm, hh] using
                ⟨hsum, hdep, hdis⟩
            · simp only [applyOp, Client.applyOpE, Client.resolve, hl, hm, hh,
                if_false]
              refine ⟨?_, hdep, ?_⟩
              · simp [sumAmounts_remove hm, hsum]
              · intro p hp
                exact hdis p (mapRemove_mem hp)
  | chargeback tx =>
      by_cases hl : c.locked
      · simpa [applyOp, Client.applyOpE, Client.chargeback, hl] using ⟨hsum, hdep, hdis⟩
      · cases hm : mapLookup c.disputed_transactions tx with
        | none =>
            simpa [applyOp, Client.applyOpE, Client.chargeback, hl, hm] using
              ⟨hsum, hdep, hdis⟩
        | some a =>
            by_cases hh : c.held < a
            · simpa [applyOp, Client.applyOpE, Client.chargeback, hl, hm, hh] using
                ⟨hsum, hdep, hdis⟩
            · simp only [applyOp, Client.applyOpE, Client.chargeback, hl, hm, hh,
                if_false]
              refine ⟨?_, hdep, ?_⟩
              · simp [sumAmounts_remove hm, hsum]
              · intro p hp
                exact hdis p (mapRemove_mem hp)

theorem foldl_inv (ops : List Op) :
    ∀ c : Client, (∀ op ∈ ops, ValidOp op = true) → AccountInv c →
      AccountInv (List.foldl applyOp c ops) := by
  induction ops with
  | nil => intro c _ h; simpa using h
  | cons op rest ih =>
      intro c hv h
      simp only [List.foldl]
      exact ih (applyOp c op) (fun o ho => hv o (by simp [ho]))
        (applyOp_inv c op (hv op (by simp)) h)

theorem accountInv_new (id : Nat) : AccountInv (Client.new id) := by
  refine ⟨?_, ?_, ?_⟩ <;> simp [Client.new, sumAmounts, AccountInv]

theorem accountInv_no_insufficient_held (c : Client) (h : AccountInv c) :
    (∀ tx cid act, c.resolve tx ≠ .error (.InsufficientHeldFunds cid act)) ∧
    (∀ tx cid act, c.chargeback tx ≠ .error (.InsufficientHeldFunds cid act)) := by
  obtain ⟨hsum, _, hdis⟩ := h
  constructor
  · intro tx cid act
    by_cases hl : c.locked
    · simp [Client.resolve, hl]
    · cases hm : mapLookup c.disputed_transactions tx with
      | none => simp [Client.resolve, hl, hm]
      | some a =>
          have hle : a ≤ c.held := hsum ▸ mem_le_sumAmounts hdis (mapLookup_mem hm)
          simp [Client.resolve, hl, hm, not_lt.mpr hle]
  · intro tx cid act
    by_cases hl : c.locked
    · simp [Client.chargeback, hl]
    · cases hm : mapLookup c.disputed_transactions tx with
      | none => simp [Client.chargeback, hl, hm]
      | some a =>
          have hle : a ≤ c.held := hsum ▸ mem_le_sumAmounts hdis (mapLookup_mem hm)
          simp [Client.chargeback, hl, hm, not_lt.mpr hle]

/-- C6: in every account state reachable from a fresh account through
operations whose amounts passed upstream validation, `held` equals the
exact sum of the live disputed amounts, is nonnegative, and dominates
every single live disputed amount, so the defensive
`InsufficientHeldFunds` branches of resolve and chargeback can never
fire. -/
theorem held_matches_disputes :
    ∀ (id : Nat) (ops : List Op), (∀ op ∈ ops, ValidOp op = true) →
      ((applyOps id ops).held = sumAmounts (applyOps id ops).disputed_transactions) ∧
      (0 ≤ (applyOps id ops).held) ∧
      (∀ tx a, mapLookup (applyOps id ops).disputed_transactions tx = some a →
        0 < a ∧ a ≤ (applyOps id ops).held) ∧
      (∀ tx cid act,
        (applyOps id ops).resolve tx ≠ .error (.InsufficientHeldFunds cid act)) ∧
      (∀ tx cid act,
        (applyOps id ops).chargeback tx ≠ .error (.InsufficientHeldFunds cid act)) := by
  intro id ops hv
  have hinv : AccountInv (applyOps id ops) :=
    foldl_inv ops (Client.new id) hv (accountInv_new id)
  obtain ⟨hsum, hdep, hdis⟩ := hinv
  have hne := accountInv_no_insufficient_held (applyOps id ops) ⟨hsum, hdep, hdis⟩
  refine ⟨hsum, ?_, ?_, hne.1, hne.2⟩
  · rw [hsum]
    exact sumAmounts_nonneg _ hdis
  · intro tx a hm
    exact ⟨hdis _ (mapLookup_mem hm),
      hsum ▸ mem_le_sumAmounts hdis (mapLookup_mem hm)⟩

/-- Witness for C6 on the account with a live dispute of 5 under tx 1. -/
theorem held_matches_disputes_witness :
    ((applyOps 1 [.deposit 1 5, .dispute 1]).held =
      sumAmounts (applyOps 1 [.deposit 1 5, .dispute 1]).disputed_transactions) ∧
    (0 ≤ (applyOps 1 [.deposit 1 5, .dispute 1]).held) ∧
    ((applyOps 1 [.deposit 1 5, .dispute 1]).resolve 1 ≠
      .error (.InsufficientHeldFunds 1 "resolve")) := by
  have hv : ∀ op ∈ [Op.deposit 1 5, Op.dispute 1], ValidOp op = true := by
    intro op hop
    simp only [List.mem_cons, List.not_mem_nil, or_false] at hop
    rcases hop with rfl | rfl <;> norm_num [ValidOp]
  have h := held_matches_disputes 1 [.deposit 1 5, .dispute 1] hv
  exact ⟨h.1, h.2.1, h.2.2.2.1 1 1 "resolve"⟩

theorem lookupClient_insert_other (m : ClientMap) (j : Nat) (c : Client)
    (k : Nat) (h : k ≠ j) :
    lookupClient (insertClient m j c) k = lookupClient m k := by
  induction m with
  | nil => simp [insertClient, lookupClient, Ne.symm h]
  | cons p rest ih =>
      by_cases hj : p.1 = j
      · subst hj
        simp [insertClient, lookupClient, Ne.symm h]
      · by_cases hk : p.1 = k <;>
          simp [insertClient, lookupClient, hj, hk, h, Ne.symm h, ih]

/-- C10 counterexample: a dispute record carrying a present amount is not
dropped — validation accepts it as `NoAmount`, the record reaches the
account (creating it), and after a prior deposit it mutates `held`. -/
theorem amount_on_dispute_reaches_account :
    validate_transaction .Dispute 1 1 (some 3) = .ok (.NoAmount 1) ∧
    (lookupClient (processTransactionsMap [some ⟨.Dispute, 1, 1, some 3⟩]) 1).isSome
      = true ∧
    (lookupClient (processTransactionsMap
        [some ⟨.Deposit, 1, 1, some 5⟩, some ⟨.Dispute, 1, 1, some 3⟩]) 1).map
      Client.held = some 5 := by
  refine ⟨by norm_num [validate_transaction, u32Max], by rfl, ?_⟩
  norm_num [processTransactionsMap, processRow, validate_transaction, u32Max,
    lookupClient, insertClient, mutate, mutateE, applyResult, Client.new,
    Client.deposit, Client.dispute, mapContains, mapLookup, mapInsert]

/-- C10 as amended: for dispute, resolve and chargeback records the
`amount` field is ignored, not rejected — validation and processing of
such a record coincide with those of the same record with no amount. -/
theorem amount_ignored_for_dispute_family :
    ∀ (tt : TransactionType), (tt = .Dispute ∨ tt = .Resolve ∨ tt = .Chargeback) →
    ∀ (cid : Nat) (tx : Int) (amt : Option Rat),
      validate_transaction tt cid tx amt = validate_transaction tt cid tx none ∧
      ∀ (clients : ClientMap),
        processRow clients (some ⟨tt, cid, tx, amt⟩) =
          processRow clients (some ⟨tt, cid, tx, none⟩) := by
  intro tt h cid tx amt
  have hval : validate_transaction tt cid tx amt = validate_transaction tt cid tx none := by
    rcases h with rfl | rfl | rfl <;> rfl
  refine ⟨hval, fun clients => ?_⟩
  simp only [processRow, hval]

/-- Witness for the amended C10 at a concrete dispute record with a
present amount. -/
theorem amount_ignored_for_dispute_family_witness :
    validate_transaction .Dispute 1 1 (some 3) = validate_transaction .Dispute 1 1 none ∧
    processRow [] (some ⟨.Dispute, 1, 1, some 3⟩) =
      processRow [] (some ⟨.Dispute, 1, 1, none⟩) :=
  ⟨(amount_ignored_for_dispute_family .Dispute (.inl rfl) 1 1 (some 3)).1,
   (amount_ignored_for_dispute_family .Dispute (.inl rfl) 1 1 (some 3)).2 []⟩

/-- C7 counterexample: in the binary's duplicate engine (`src/main.rs`),
a deposit record with a missing amount makes `process_transactions`
return an error, aborting the run. -/
theorem missing_amount_aborts_main :
    main_process_transactions [some ⟨.Deposit, 1, 1, none⟩] =
      .error "Missing amount for deposit transaction 1" := by
  rfl

/-- C7 as amended: in the library engine (`src/lib.rs`) every per-record
failure is non-fatal and local — processing always returns a snapshot, a
record never touches accounts other than the one it names, a validation
failure leaves the map unchanged, a parse failure is skipped, and a
mutator failure re-inserts the named account unchanged. -/
theorem process_failures_nonfatal :
    (∀ records, ∃ out, process_transactions records = .ok out) ∧
    (∀ (clients : ClientMap) (t : InputTransaction) (id : Nat),
      id ≠ t.client →
      lookupClient (processRow clients (some t)) id = lookupClient clients id) ∧
    (∀ (clients : ClientMap) (t : InputTransaction) (e : ClientTransactionError),
      validate_transaction t.tx_type t.client t.tx t.amount = .error e →
      processRow clients (some t) = clients) ∧
    (∀ clients : ClientMap, processRow clients none = clients) ∧
    (∀ (clients : ClientMap) (t : InputTransaction) (v : ValidatedTransaction)
        (e : ClientTransactionError),
      validate_transaction t.tx_type t.client t.tx t.amount = .ok v →
      mutateE ((lookupClient clients t.client).getD (Client.new t.client)) t.tx_type v =
        .error e →
      processRow clients (some t) = insertClient clients t.client
        ((lookupClient clients t.client).getD (Client.new t.client))) := by
  refine ⟨fun records => ⟨_, rfl⟩, ?_, ?_, fun clients => rfl, ?_⟩
  · intro clients t id hid
    cases hval : validate_transaction t.tx_type t.client t.tx t.amount with
    | error e => simp [processRow, hval]
    | ok v =>
        simp only [processRow, hval]
        exact lookupClient_insert_other clients t.client _ id hid
  · intro clients t e hval
    simp [processRow, hval]
  · intro clients t v e hval hmut
    simp [processRow, hval, mutate, hmut, applyResult]

/-- Witness for the amended C7: a withdrawal by client 2 does not touch
client 1's entry, and its own failing mutator leaves client 2 fresh. -/
theorem process_failures_nonfatal_witness :
    (∃ out, process_transactions [some ⟨.Deposit, 1, 1, some 5⟩] = .ok out) ∧
    lookupClient (processRow [] (some ⟨.Withdrawal, 2, 2, some 3⟩)) 1 =
      lookupClient [] 1 ∧
    processRow [] (some ⟨.Withdrawal, 2, 2, some 3⟩) =
      insertClient [] 2 ((lookupClient [] 2).getD (Client.new 2)) :=
  ⟨process_failures_nonfatal.1 [some ⟨.Deposit, 1, 1, some 5⟩],
   process_failures_nonfatal.2.1 [] ⟨.Withdrawal, 2, 2, some 3⟩ 1 (by norm_num),
   process_failures_nonfatal.2.2.2.2 [] ⟨.Withdrawal, 2, 2, some 3⟩
     (.WithAmount 2 3) (.InsufficientAvailableFunds 2)
     (by decide)
     (by norm_num [mutateE, lookupClient, Client.new, Client.withdraw])⟩

theorem applyOp_id (c : Client) (op : Op) : (applyOp c op).id = c.id := by
  cases op with
  | deposit tx a =>
      by_cases hl : c.locked <;> simp [applyOp, Client.applyOpE, Client.deposit, hl]
  | withdraw a =>
      by_cases hl : c.locked
      · simp [applyOp, Client.applyOpE, Client.withdraw, hl]
      · by_cases hav : c.available < a <;>
          simp [applyOp, Client.applyOpE, Client.withdraw, hl, hav]
  | dispute tx =>
      by_cases hl : c.locked
      · simp [applyOp, Client.applyOpE, Client.dispute, hl]
      · by_cases hd : mapContains c.disputed_transactions tx
        · simp [applyOp, Client.applyOpE, Client.dispute, hl, hd]
        · cases hm : mapLookup c.deposit_transactions tx <;>
            simp [applyOp, Client.applyOpE, Client.dispute, hl, hd, hm]
  | resolve tx =>
      by_cases hl : c.locked
      · simp [applyOp, Client.applyOpE, Client.resolve, hl]
      · cases hm : mapLookup c.disputed_transactions tx with
        | none => simp [applyOp, Client.applyOpE, Client.resolve, hl, hm]
        | some a =>
            by_cases hh : c.held < a <;>
              simp [applyOp, Client.applyOpE, Client.resolve, hl, hm, hh]
  | chargeback tx =>
      by_cases hl : c.locked
      · simp [applyOp, Client.applyOpE, Client.chargeback, hl]
      · cases hm : mapLookup c.disputed_transactions tx with
        | none => simp [applyOp, Client.applyOpE, Client.chargeback, hl, hm]
        | some a =>
            by_cases hh : c.held < a <;>
              simp [applyOp, Client.applyOpE, Client.chargeback, hl, hm, hh]

theorem mutate_id (c : Client) (tt : TransactionType) (v : ValidatedTransaction) :
    (mutate c tt v).id = c.id := by
  cases tt <;> cases v <;>
    first
    | rfl
    | exact applyOp_id c (.deposit _ _)
    | exact applyOp_id c (.withdraw _)
    | exact applyOp_id c (.dispute _)
    | exact applyOp_id c (.resolve _)
    | exact applyOp_id c (.chargeback _)

theorem lookupClient_mem {m : ClientMap} {k : Nat} {c : Client}
    (h : lookupClient m k = some c) : (k, c) ∈ m := by
  induction m with
  | nil => simp [lookupClient] at h
  | cons p rest ih =>
      by_cases hk : p.1 = k
      · simp [lookupClient, hk] at h
        subst h
        subst hk
        exact List.mem_cons_self _ _
      · simp [lookupClient, hk] at h
        exact .tail _ (ih h)

theorem mem_insertClient {m : ClientMap} {k : Nat} {c : Client} {p : Nat × Client}
    (h : p ∈ insertClient m k c) : p = (k, c) ∨ p ∈ m := by
  induction m with
  | nil => simpa [insertClient] using h
  | cons q rest ih =>
      by_cases hk : q.1 = k
      · simp only [insertClient, if_pos hk] at h
        rcases List.mem_cons.mp h with heq | htail
        · exact .inl heq
        · exact .inr (.tail _ htail)
      · simp only [insertClient, if_neg hk] at h
        rcases List.mem_cons.mp h with heq | htail
        · exact .inr (heq ▸ List.mem_cons_self q rest)
        · rcases ih htail with h1 | h2
          · exact .inl h1
          · exact .inr (.tail _ h2)

theorem mem_keys_insertClient (m : ClientMap) (j : Nat) (c : Client) (k : Nat) :
    k ∈ (insertClient m j c).map Prod.fst ↔ k = j ∨ k ∈ m.map Prod.fst := by
  induction m with
  | nil => simp [insertClient]
  | cons q rest ih =>
      by_cases hj : q.1 = j
      · subst hj
        simp [insertClient]
        try tauto
      · simp [insertClient, hj, ih]
        try tauto

theorem keysNodup_insertClient {m : ClientMap} (j : Nat) (c : Client)
    (h : KeysNodup m) : KeysNodup (insertClient m j c) := by
  induction m with
  | nil => simp [insertClient, KeysNodup]
  | cons q rest ih =>
      rw [KeysNodup, List.map_cons, List.nodup_cons] at h
      by_cases hj : q.1 = j
      · subst hj
        rw [KeysNodup]
        have he : insertClient (q :: rest) q.1 c = (q.1, c) :: rest := by
          simp [insertClient]
        rw [he, List.map_cons, List.nodup_cons]
        exact h
      · have hr := ih h.2
        rw [KeysNodup]
        simp only [insertClient, if_neg hj, List.map_cons, List.nodup_cons]
        refine ⟨?_, hr⟩
        intro hq
        rcases (mem_keys_insertClient rest j c q.1).mp hq with heq | hmem
        · exact hj heq
        · exact h.1 hmem

theorem idsOk_insertClient {m : ClientMap} {j : Nat} {c : Client}
    (h : IdsOk m) (hc : c.id = j) : IdsOk (insertClient m j c) := by
  intro p hp
  rcases mem_insertClient hp with rfl | hmem
  · exact hc
  · exact h p hmem

theorem processRow_idsOk {m : ClientMap} (r : Option InputTransaction)
    (h : IdsOk m) : IdsOk (processRow m r) := by
  cases r with
  | none => exact h
  | some t =>
      cases hval : validate_transaction t.tx_type t.client t.tx t.amount with
      | error e => simpa [processRow, hval] using h
      | ok v =>
          simp only [processRow, hval]
          refine idsOk_insertClient h ?_
          rw [mutate_id]
          cases hl : lookupClient m t.client with
          | none => simp [Client.new]
          | some c0 => simpa using h _ (lookupClient_mem hl)

theorem processRow_keysNodup {m : ClientMap} (r : Option InputTransaction)
    (h : KeysNodup m) : KeysNodup (processRow m r) := by
  cases r with
  | none => exact h
  | some t =>
      cases hval : validate_transaction t.tx_type t.client t.tx t.amount with
      | error e => simpa [processRow, hval] using h
      | ok v =>
          simp only [processRow, hval]
          exact keysNodup_insertClient _ _ h

theorem foldl_processRow_idsOk (records : List (Option InputTransaction)) :
    ∀ m : ClientMap, IdsOk m → IdsOk (records.foldl processRow m) := by
  induction records with
  | nil => intro m h; simpa using h
  | cons r rest ih =>
      intro m h
      exact ih (processRow m r) (processRow_idsOk r h)

theorem foldl_processRow_keysNodup (records : List (Option InputTransaction)) :
    ∀ m : ClientMap, KeysNodup m → KeysNodup (records.foldl processRow m) := by
  induction records with
  | nil => intro m h; simpa using h
  | cons r rest ih =>
      intro m h
      exact ih (processRow m r) (processRow_keysNodup r h)

theorem keys_processRow_iff (m : ClientMap) (r : Option InputTransaction) (id : Nat) :
    id ∈ (processRow m r).map Prod.fst ↔
      (id ∈ m.map Prod.fst ∨ rowValidatedFor r id = true) := by
  cases r with
  | none => simp [processRow, rowValidatedFor]
  | some t =>
      cases hval : validate_transaction t.tx_type t.client t.tx t.amount with
      | error e => simp [processRow, rowValidatedFor, hval]
      | ok v =>
          simp only [processRow, hval, mem_keys_insertClient, rowValidatedFor]
          simp [hval, eq_comm]
          tauto

theorem keys_foldl_processRow (records : List (Option InputTransaction)) :
    ∀ (m : ClientMap) (id : Nat),
      id ∈ (records.foldl processRow m).map Prod.fst ↔
        (id ∈ m.map Prod.fst ∨ appearsValidated records id = true) := by
  induction records with
  | nil => intro m id; simp [appearsValidated]
  | cons r rest ih =>
      intro m id
      rw [List.foldl_cons, ih, keys_processRow_iff]
      simp only [appearsValidated, List.any_cons, Bool.or_eq_true]
      tauto

theorem mem_insertById (c : Client) (l : List Client) (x : Client) :
    x ∈ insertById c l ↔ x = c ∨ x ∈ l := by
  induction l with
  | nil => simp [insertById]
  | cons d rest ih =>
      by_cases h : c.id ≤ d.id
      · simp [insertById, h]
        try tauto
      · simp [insertById, h, ih]
        try tauto

theorem perm_insertById (c : Client) (l : List Client) :
    List.Perm (insertById c l) (c :: l) := by
  induction l with
  | nil => exact List.Perm.refl _
  | cons d rest ih =>
      by_cases h : c.id ≤ d.id
      · simp only [insertById, if_pos h]
        exact List.Perm.refl _
      · simp only [insertById, if_neg h]
        exact (ih.cons d).trans (List.Perm.swap c d rest)

theorem perm_sortById (l : List Client) : List.Perm (sortById l) l := by
  induction l with
  | nil => exact List.Perm.refl _
  | cons c rest ih =>
      exact (perm_insertById c (sortById rest)).trans (ih.cons c)

theorem pairwise_le_insertById (c : Client) (l : List Client)
    (h : l.Pairwise (fun a b => a.id ≤ b.id)) :
    (insertById c l).Pairwise (fun a b => a.id ≤ b.id) := by
  induction l with
  | nil => simp [insertById]
  | cons d rest ih =>
      rcases List.pairwise_cons.mp h with ⟨hd, hrest⟩
      by_cases hle : c.id ≤ d.id
      · simp only [insertById, if_pos hle]
        refine List.pairwise_cons.mpr ⟨?_, h⟩
        intro x hx
        rcases List.mem_cons.mp hx with rfl | hxr
        · exact hle
        · exact le_trans hle (hd x hxr)
      · simp only [insertById, if_neg hle]
        refine List.pairwise_cons.mpr ⟨?_, ih hrest⟩
        intro x hx
        rcases (mem_insertById c rest x).mp hx with rfl | hxr
        · exact le_of_not_le hle
        · exact hd x hxr

theorem pairwise_le_sortById (l : List Client) :
    (sortById l).Pairwise (fun a b => a.id ≤ b.id) := by
  induction l with
  | nil => simp [sortById]
  | cons c rest ih =>
      simpa [sortById] using pairwise_le_insertById c (sortById rest) ih

theorem pairwise_lt_of_nodup (l : List Client) :
    l.Pairwise (fun a b => a.id ≤ b.id) → (l.map Client.id).Nodup →
    l.Pairwise (fun a b => a.id < b.id) := by
  induction l with
  | nil => intro _ _; exact List.Pairwise.nil
  | cons c rest ih =>
      intro h hn
      rcases List.pairwise_cons.mp h with ⟨hd, hrest⟩
      rw [List.map_cons, List.nodup_cons] at hn
      refine List.pairwise_cons.mpr ⟨?_, ih hrest hn.2⟩
      intro x hx
      refine lt_of_le_of_ne (hd x hx) ?_
      intro heq
      exact hn.1 (heq ▸ List.mem_map_of_mem Client.id hx)

theorem exists_values_iff_keys {m : ClientMap} (hids : IdsOk m) (id : Nat) :
    (∃ c ∈ m.map Prod.snd, c.id = id) ↔ id ∈ m.map Prod.fst := by
  constructor
  · rintro ⟨c, hc, rfl⟩
    rcases List.mem_map.mp hc with ⟨p, hp, rfl⟩
    rw [hids p hp]
    exact List.mem_map_of_mem Prod.fst hp
  · intro h
    rcases List.mem_map.mp h with ⟨p, hp, rfl⟩
    exact ⟨p.2, List.mem_map_of_mem Prod.snd hp, hids p hp⟩

theorem values_map_id_eq_keys {m : ClientMap} (hids : IdsOk m) :
    (m.map Prod.snd).map Client.id = m.map Prod.fst := by
  rw [List.map_map]
  exact List.map_congr_left fun p hp => hids p hp

theorem digitChar_isDigit : ∀ d : Nat, d < 10 → (Nat.digitChar d).isDigit = true := by
  decide

theorem fourDigits_digits (n : Nat) :
    ∀ ch ∈ (fourDigits n).data, ch.isDigit = true := by
  intro ch hch
  have hdata : (fourDigits n).data =
      [Nat.digitChar (n / 1000 % 10), Nat.digitChar (n / 100 % 10),
        Nat.digitChar (n / 10 % 10), Nat.digitChar (n % 10)] := rfl
  rw [hdata] at hch
  simp only [List.mem_cons, List.not_mem_nil, or_false] at hch
  rcases hch with rfl | rfl | rfl | rfl <;>
    exact digitChar_isDigit _ (Nat.mod_lt _ (by omega))

theorem format_decimal_split (q : Rat) :
    ∃ pre frac : String, format_decimal q = pre ++ "." ++ frac ∧
      frac.length = 4 ∧ ∀ ch ∈ frac.data, ch.isDigit = true := by
  refine ⟨(if roundHalfAway (q * 10000) < 0 then "-" else "") ++
      Nat.repr ((roundHalfAway (q * 10000)).natAbs / 10000),
    fourDigits ((roundHalfAway (q * 10000)).natAbs % 10000),
    rfl, rfl, fourDigits_digits _⟩

/-- C9: the final snapshot is the header plus one row per account, the
accounts are exactly the client ids with at least one validated record
(clients whose only records failed in the mutator included, with zero
balances), rows are in strictly ascending client-id order, every monetary
field carries exactly four fractional digits, and `locked` renders as the
literal `true` or `false`. -/
theorem snapshot_spec :
    ∀ records : List (Option InputTransaction),
      (snapshot (processTransactionsMap records) =
        ["client", "available", "held", "total", "locked"] ::
          (sortById ((processTransactionsMap records).map Prod.snd)).map clientRow) ∧
      List.Pairwise (fun a b => a.id < b.id)
        (sortById ((processTransactionsMap records).map Prod.snd)) ∧
      (∀ id, (∃ c ∈ sortById ((processTransactionsMap records).map Prod.snd), c.id = id)
        ↔ appearsValidated records id = true) ∧
      (∀ q : Rat, ∃ pre frac : String, format_decimal q = pre ++ "." ++ frac ∧
        frac.length = 4 ∧ ∀ ch ∈ frac.data, ch.isDigit = true) ∧
      (∀ c : Client, clientRow c = [Nat.repr c.id, format_decimal c.available,
        format_decimal c.held, format_decimal c.total, boolString c.locked] ∧
        (boolString c.locked = "true" ∨ boolString c.locked = "false")) ∧
      snapshot (processTransactionsMap [some ⟨.Withdrawal, 2, 1, some 3⟩]) =
        [["client", "available", "held", "total", "locked"],
          ["2", "0.0000", "0.0000", "0.0000", "false"]] := by
  intro records
  have hids : IdsOk (processTransactionsMap records) :=
    foldl_processRow_idsOk records [] (by intro p hp; simp at hp)
  have hnodup : KeysNodup (processTransactionsMap records) :=
    foldl_processRow_keysNodup records [] (by simp [KeysNodup])
  have hperm := perm_sortById ((processTransactionsMap records).map Prod.snd)
  refine ⟨rfl, ?_, ?_, format_decimal_split, ?_, ?_⟩
  · have hle := pairwise_le_sortById ((processTransactionsMap records).map Prod.snd)
    have hnd : ((sortById ((processTransactionsMap records).map Prod.snd)).map
        Client.id).Nodup := by
      have hkeys : (((processTransactionsMap records).map Prod.snd).map Client.id).Nodup := by
        rw [values_map_id_eq_keys hids]
        exact hnodup
      exact ((hperm.map Client.id).nodup_iff).mpr hkeys
    exact pairwise_lt_of_nodup _ hle hnd
  · intro id
    have h1 : (∃ c ∈ sortById ((processTransactionsMap records).map Prod.snd), c.id = id)
        ↔ (∃ c ∈ (processTransactionsMap records).map Prod.snd, c.id = id) := by
      constructor <;> rintro ⟨c, hc, rfl⟩
      · exact ⟨c, hperm.mem_iff.mp hc, rfl⟩
      · exact ⟨c, hperm.mem_iff.mpr hc, rfl⟩
    rw [h1, exists_values_iff_keys hids id]
    have h2 : id ∈ (processTransactionsMap records).map Prod.fst ↔
        appearsValidated records id = true := by
      simpa [processTransactionsMap] using keys_foldl_processRow records [] id
    exact h2
  · intro c
    exact ⟨rfl, by cases hc : c.locked <;> simp [boolString, hc]⟩
  · norm_num [snapshot, processTransactionsMap, processRow, validate_transaction,
      u32Max, mutate, mutateE, applyResult, Client.new, Client.withdraw,
      lookupClient, insertClient, sortById, insertById, clientRow, boolString,
      format_decimal, roundHalfAway, fourDigits, Rat.floor_def']
    exact ⟨rfl, rfl⟩

/-- Witness for C9: client 1 appears in the snapshot of a single validated
deposit record. -/
theorem snapshot_spec_witness :
    appearsValidated [some ⟨.Deposit, 1, 1, some 5⟩] 1 = true ∧
    ∃ c ∈ sortById ((processTransactionsMap [some ⟨.Deposit, 1, 1, some 5⟩]).map Prod.snd),
      c.id = 1 := by
  have happ : appearsValidated [some ⟨.Deposit, 1, 1, some 5⟩] 1 = true := by decide
  exact ⟨happ, ((snapshot_spec [some ⟨.Deposit, 1, 1, some 5⟩]).2.2.1 1).mpr happ⟩

end PaymentsEngine
